import Mathlib

/-
Verification of the UTXO ledger state-transition core
(runtime/src/utxo.rs of the utxo-workshop runtime).

The Rust module is shallowly embedded: machine integers u128/u64 are
modelled as Nat with explicit bounds (checked_add / checked_sub /
checked_div return Option, overflow checked against 2^128 resp. 2^64);
the external collaborators (the SCALE codec, the BlakeTwo256 hash and
the byte view of an H256) are a parameter structure Env, and the
sr25519 signature primitive is a parameter of type Verifier; the
storage (UtxoStore map plus the RewardTotal counter) is an explicit
UtxoState value threaded through the functions; fallible paths return
Except String (the DispatchResult error strings of the source) and a
runtime panic (unwrap) is modelled as Option.none.
-/

set_option autoImplicit false

namespace Utxo

/-- 256-bit hash / key (sp_core::H256), modelled as a natural number. -/
abbrev H256 := Nat

/-- 512-bit signature blob (sp_core::H512), modelled as a natural number;
the all-zero H512 is 0. -/
abbrev H512 := Nat

/-- type Value = u128. -/
abbrev Value := Nat

/-- A canonical byte encoding (Vec<u8>). -/
abbrev Bytes := List Nat

/-- 2^128, the bound of u128 arithmetic. -/
def U128 : Nat := 2 ^ 128

/-- 2^64, the bound of u64 arithmetic. -/
def U64 : Nat := 2 ^ 64

/-- u128::checked_add. -/
def checkedAdd128 (a b : Nat) : Option Nat :=
  if a + b < U128 then some (a + b) else none

/-- u64::checked_add. -/
def checkedAdd64 (a b : Nat) : Option Nat :=
  if a + b < U64 then some (a + b) else none

/-- u128::checked_sub. -/
def checkedSub (a b : Nat) : Option Nat :=
  if b ≤ a then some (a - b) else none

/-- u128::checked_div: None exactly on a zero divisor. -/
def checkedDiv (a b : Nat) : Option Nat :=
  if b = 0 then none else some (a / b)

/-- struct TransactionInput { outpoint: H256, sigscript: H512 }. -/
structure TransactionInput where
  outpoint : H256
  sigscript : H512
deriving DecidableEq

/-- struct TransactionOutput { value: Value, pubkey: H256 }. -/
structure TransactionOutput where
  value : Value
  pubkey : H256
deriving DecidableEq

/-- struct Transaction { inputs: Vec<TransactionInput>, outputs: Vec<TransactionOutput> }. -/
structure Transaction where
  inputs : List TransactionInput
  outputs : List TransactionOutput
deriving DecidableEq

/-- sp_runtime ValidTransaction: requires/provides are lists of tags
(Vec<Vec<u8>>), priority is u64, longevity is u64, propagate a bool. -/
structure ValidTransaction where
  requires : List Bytes
  provides : List Bytes
  priority : Nat
  longevity : Nat
  propagate : Bool
deriving DecidableEq

/-- The UtxoStore map H256 => Option<TransactionOutput>, modelled as an
association list: a lookup takes the most recent binding, insert
prepends, remove drops every binding of the key. -/
abbrev Store := List (H256 × TransactionOutput)

/-- Lookup in the UtxoStore (UtxoStore::get). -/
def storeGet : Store → H256 → Option TransactionOutput
  | [], _ => none
  | (k, v) :: rest, key => if k = key then some v else storeGet rest key

/-- UtxoStore::contains_key. -/
def storeContains (st : Store) (k : H256) : Bool :=
  (storeGet st k).isSome

/-- UtxoStore::insert. -/
def storeInsert (st : Store) (k : H256) (v : TransactionOutput) : Store :=
  (k, v) :: st

/-- UtxoStore::remove. -/
def storeRemove (st : Store) (k : H256) : Store :=
  st.filter (fun p => p.1 != k)

/-- The decl_storage state of the module: the UtxoStore map and the
RewardTotal counter. -/
structure UtxoState where
  utxoStore : Store
  rewardTotal : Value
deriving DecidableEq

/-- The external collaborators the module consumes: the SCALE encoding of
a transaction, BlakeTwo256::hash_of over (encode(tx), index) and over
(output, block_number), and the byte view as_fixed_bytes().to_vec() of an
H256. -/
structure Env where
  encode : Transaction → Bytes
  hashTxIdx : Bytes → Nat → H256
  hashOutputHeight : TransactionOutput → Nat → H256
  h256ToBytes : H256 → Bytes

/-- sp_io::crypto::sr25519_verify (signature, message, public key). -/
abbrev Verifier := H512 → Bytes → H256 → Bool

/-- get_simple_transaction: clone the transaction, zero every input's
sigscript, and encode the result. -/
def get_simple_transaction (env : Env) (transaction : Transaction) : Bytes :=
  env.encode
    { transaction with
      inputs := transaction.inputs.map (fun i => { i with sigscript := 0 }) }

/-- The per-input loop of validate_transaction: a present outpoint must
carry a valid signature over the simple transaction and its value is
accumulated with checked addition; an absent outpoint is pushed onto the
missing list as its byte view. -/
def processInputs (env : Env) (vf : Verifier) (st : Store) (msg : Bytes) :
    List TransactionInput → Value → List Bytes → Except String (Value × List Bytes)
  | [], total, missing => .ok (total, missing)
  | i :: rest, total, missing =>
    match storeGet st i.outpoint with
    | some u =>
      if vf i.sigscript msg u.pubkey then
        match checkedAdd128 total u.value with
        | none => .error "input value overflow"
        | some total2 => processInputs env vf st msg rest total2 missing
      else .error "signature must be valid"
    | none =>
      processInputs env vf st msg rest total (missing ++ [env.h256ToBytes i.outpoint])

/-- The per-output loop of validate_transaction: the value must be
nonzero, the key H(encode(tx), index) must not already exist, the index is
advanced with u64 checked addition, the value is accumulated with checked
addition, and the key's byte view is pushed onto the new-utxo list. -/
def processOutputs (env : Env) (st : Store) (txEnc : Bytes) :
    List TransactionOutput → Nat → Value → List Bytes → Except String (Value × List Bytes)
  | [], _, total, acc => .ok (total, acc)
  | o :: rest, idx, total, acc =>
    if o.value = 0 then .error "Output value must be nonzero"
    else
      match checkedAdd64 idx 1 with
      | none => .error "output index overflow"
      | some idx2 =>
        if storeContains st (env.hashTxIdx txEnc idx) then .error "output already exists"
        else
          match checkedAdd128 total o.value with
          | none => .error "output value overflow"
          | some total2 =>
            processOutputs env st txEnc rest idx2 total2
              (acc ++ [env.h256ToBytes (env.hashTxIdx txEnc idx)])

/-- validate_transaction: structural checks (nonempty inputs/outputs, no
duplicate input record, no duplicate output record — the BTreeMap size
comparison of the source is the dedup-length comparison), the input and
output loops, and the fee computation, which runs only when no input was
missing; priority is the fee cast to u64. -/
def validate_transaction (env : Env) (vf : Verifier) (s : UtxoState) (tx : Transaction) :
    Except String ValidTransaction :=
  if tx.inputs.isEmpty then .error "No inputs"
  else if tx.outputs.isEmpty then .error "No outputs"
  else if tx.inputs.dedup.length ≠ tx.inputs.length then
    .error "each input must only be used once"
  else if tx.outputs.dedup.length ≠ tx.outputs.length then
    .error "each output must only be used once"
  else
    match processInputs env vf s.utxoStore (get_simple_transaction env tx) tx.inputs 0 [] with
    | .error e => .error e
    | .ok (totalInput, missingUtxos) =>
      match processOutputs env s.utxoStore (env.encode tx) tx.outputs 0 0 [] with
      | .error e => .error e
      | .ok (totalOutput, newUtxos) =>
        if missingUtxos.isEmpty then
          if totalOutput ≤ totalInput then
            match checkedSub totalInput totalOutput with
            | none => .error "reward overflow"
            | some reward =>
              .ok ⟨missingUtxos, newUtxos, reward % U64, U64 - 1, true⟩
          else .error "output value mustr not exceed input value"
        else
          .ok ⟨missingUtxos, newUtxos, 0, U64 - 1, true⟩

/-- The removal loop of update_storage. -/
def removeInputs : Store → List TransactionInput → Store
  | st, [] => st
  | st, i :: rest => removeInputs (storeRemove st i.outpoint) rest

/-- The insertion loop of update_storage: each output is inserted under
H(encode(tx), index), the index advanced with u64 checked addition. -/
def insertOutputs (env : Env) (txEnc : Bytes) :
    Store → List TransactionOutput → Nat → Except String Store
  | st, [], _ => .ok st
  | st, o :: rest, idx =>
    match checkedAdd64 idx 1 with
    | none => .error "output index overflow"
    | some idx2 =>
      insertOutputs env txEnc (storeInsert st (env.hashTxIdx txEnc idx) o) rest idx2

/-- update_storage: credit RewardTotal with checked addition, remove every
consumed outpoint, insert every produced output. -/
def update_storage (env : Env) (s : UtxoState) (tx : Transaction) (reward : Value) :
    Except String UtxoState :=
  match checkedAdd128 s.rewardTotal reward with
  | none => .error "reward overflow"
  | some newTotal =>
    match insertOutputs env (env.encode tx) (removeInputs s.utxoStore tx.inputs) tx.outputs 0 with
    | .error e => .error e
    | .ok st => .ok ⟨st, newTotal⟩

/-- spend: validate, then update storage with the priority (the fee cast
through u64) as the reward. The source never checks that the returned
requires list is empty before updating. -/
def spend (env : Env) (vf : Verifier) (s : UtxoState) (tx : Transaction) :
    Except String UtxoState :=
  match validate_transaction env vf s tx with
  | .error e => .error e
  | .ok v => update_storage env s tx v.priority

/-- The dispatch view of spend supplied by the host runtime: an extrinsic
that returns an error leaves the storage as it was. -/
def dispatchSpend (env : Env) (vf : Verifier) (s : UtxoState) (tx : Transaction) : UtxoState :=
  match spend env vf s tx with
  | .ok s2 => s2
  | .error _ => s

/-- The per-authority body of the reward loop of disperse_rewards: the
output {value: share, pubkey: authority} is inserted under
H(output, block_number) only when that key is already present
(the source's literal condition); otherwise the store is untouched. -/
def rewardStep (env : Env) (blockNumber : Nat) (share : Value) (st : Store) (authority : H256) :
    Store :=
  let utxo : TransactionOutput := ⟨share, authority⟩
  let hash := env.hashOutputHeight utxo blockNumber
  if storeContains st hash then storeInsert st hash utxo else st

/-- disperse_rewards: take the reward pool (resetting it to 0), divide by
the authority count with checked division — the unwrap of the source
panics on an empty list, modelled as none — return early when the share is
zero, otherwise put the remainder back and run the reward loop. -/
def disperse_rewards (env : Env) (blockNumber : Nat) (authorities : List H256) (s : UtxoState) :
    Option UtxoState :=
  match checkedDiv s.rewardTotal authorities.length with
  | none => none
  | some share =>
    if share = 0 then some ⟨s.utxoStore, 0⟩
    else
      match checkedSub s.rewardTotal (share * authorities.length) with
      | none => none
      | some remainder =>
        some ⟨authorities.foldl (rewardStep env blockNumber share) s.utxoStore, remainder⟩

/-- Sum of the stored values consumed by a list of inputs (an absent
outpoint contributes 0). -/
def inputSum (st : Store) : List TransactionInput → Value
  | [] => 0
  | i :: rest =>
    (match storeGet st i.outpoint with
     | some u => u.value
     | none => 0) + inputSum st rest

/-- Sum of the values of a list of outputs. -/
def outputSum : List TransactionOutput → Value
  | [] => 0
  | o :: rest => o.value + outputSum rest

/-- A concrete instantiation of the external collaborators, used to
evaluate the model on explicit inputs. -/
def cEnv : Env where
  encode := fun tx =>
    tx.inputs.foldr (fun i acc => i.outpoint :: i.sigscript :: acc)
      (tx.outputs.foldr (fun o acc => o.value :: o.pubkey :: acc) [])
  hashTxIdx := fun bs idx => bs.foldl (fun a b => 2 * a + b) 0 + idx + 1000003
  hashOutputHeight := fun o h => 3 * o.value + 5 * o.pubkey + h + 500009
  h256ToBytes := fun k => [k]

/-- A verifier that accepts every signature. -/
def cVerify : Verifier := fun _ _ _ => true

/-- A verifier that rejects every signature. -/
def vfFalse : Verifier := fun _ _ _ => false

/-- An empty store with an empty reward pool. -/
def st0 : UtxoState := ⟨[], 0⟩

/-- A transaction whose single input references an outpoint (7) that is
absent from st0, producing one output of value 5. -/
def txMiss : Transaction := ⟨[⟨7, 3⟩], [⟨5, 11⟩]⟩

/-- A store holding one utxo of value 100 under key 5. -/
def stW : UtxoState := ⟨[(5, ⟨100, 77⟩)], 0⟩

/-- A transaction spending the key-5 utxo of stW into an output of value
40 (fee 60). -/
def txW : Transaction := ⟨[⟨5, 9⟩], [⟨40, 77⟩]⟩

/-- A store holding one utxo of value 2^64 + 1 under key 5. -/
def st4 : UtxoState := ⟨[(5, ⟨18446744073709551617, 77⟩)], 0⟩

/-- A transaction spending the key-5 utxo of st4 into an output of value
1, leaving a fee of exactly 2^64. -/
def tx4 : Transaction := ⟨[⟨5, 9⟩], [⟨1, 77⟩]⟩

/-- A store holding one utxo of value 10 under key 5. -/
def st9 : UtxoState := ⟨[(5, ⟨10, 77⟩)], 0⟩

/-- A transaction with one present input (key 5) and one absent input
(key 7). -/
def tx9 : Transaction := ⟨[⟨5, 3⟩, ⟨7, 3⟩], [⟨1, 77⟩]⟩

/-- A state whose store already holds the reward key of authority 4 for a
pool of 3 at block 0, so the inverted collision branch of the reward loop
fires. -/
def st5 : UtxoState := ⟨[(cEnv.hashOutputHeight ⟨3, 4⟩ 0, ⟨1, 1⟩)], 3⟩

/- ------------------------------------------------------------------ -/
/- Helper lemmas on disperse_rewards                                   -/
/- ------------------------------------------------------------------ -/

/-- Inserting under a key that is already present never changes the set of
present keys. -/
lemma storeContains_insert (st : Store) (h k : H256) (u : TransactionOutput)
    (hc : storeContains st h = true) :
    storeContains (storeInsert st h u) k = storeContains st k := by
  by_cases hk : h = k
  · subst hk
    have hg : (storeGet st h).isSome = true := hc
    simp [storeContains, storeInsert, storeGet, hg]
  · simp [storeContains, storeInsert, storeGet, hk]

/-- One iteration of the reward loop never changes the set of present
keys: it inserts only under a key that already exists. -/
lemma rewardStep_contains (env : Env) (bh : Nat) (share : Value) (st : Store)
    (a : H256) (k : H256) :
    storeContains (rewardStep env bh share st a) k = storeContains st k := by
  unfold rewardStep
  cases hc : storeContains st (env.hashOutputHeight ⟨share, a⟩ bh) with
  | false => simp [hc]
  | true => simp [hc, storeContains_insert st _ k _ hc]

/-- The whole reward loop never changes the set of present keys. -/
lemma rewardFold_contains (env : Env) (bh : Nat) (share : Value) :
    ∀ (l : List H256) (st : Store) (k : H256),
      storeContains (l.foldl (rewardStep env bh share) st) k = storeContains st k := by
  intro l
  induction l with
  | nil => intro st k; rfl
  | cons a rest ih =>
    intro st k
    rw [List.foldl_cons, ih, rewardStep_contains]

/-- disperse_rewards on a nonempty authority list with a zero share
returns with the pool at 0 and the store untouched. -/
lemma disperse_eq_of_zero (env : Env) (bh : Nat) (auths : List H256) (s : UtxoState)
    (hlen : auths.length ≠ 0) (hsh : s.rewardTotal / auths.length = 0) :
    disperse_rewards env bh auths s = some ⟨s.utxoStore, 0⟩ := by
  unfold disperse_rewards checkedDiv
  rw [if_neg hlen]
  show (if s.rewardTotal / auths.length = 0 then some (⟨s.utxoStore, 0⟩ : UtxoState)
    else
      match checkedSub s.rewardTotal (s.rewardTotal / auths.length * auths.length) with
      | none => none
      | some remainder =>
        some ⟨auths.foldl (rewardStep env bh (s.rewardTotal / auths.length)) s.utxoStore,
              remainder⟩) = some ⟨s.utxoStore, 0⟩
  rw [if_pos hsh]

/-- disperse_rewards on a nonempty authority list with a positive share
returns the looped store and the division remainder as the pool. -/
lemma disperse_eq_of_pos (env : Env) (bh : Nat) (auths : List H256) (s : UtxoState)
    (hlen : auths.length ≠ 0) (hsh : s.rewardTotal / auths.length ≠ 0) :
    disperse_rewards env bh auths s =
      some ⟨auths.foldl (rewardStep env bh (s.rewardTotal / auths.length)) s.utxoStore,
            s.rewardTotal - s.rewardTotal / auths.length * auths.length⟩ := by
  unfold disperse_rewards checkedDiv checkedSub
  rw [if_neg hlen]
  show (if s.rewardTotal / auths.length = 0 then some (⟨s.utxoStore, 0⟩ : UtxoState)
    else
      match (if s.rewardTotal / auths.length * auths.length ≤ s.rewardTotal then
               some (s.rewardTotal - s.rewardTotal / auths.length * auths.length)
             else none) with
      | none => none
      | some remainder =>
        some ⟨auths.foldl (rewardStep env bh (s.rewardTotal / auths.length)) s.utxoStore,
              remainder⟩) = _
  rw [if_neg hsh, if_pos (Nat.div_mul_le_self s.rewardTotal auths.length)]

/- ------------------------------------------------------------------ -/
/- Claims C1, C2, C3, C5, C7                                           -/
/- ------------------------------------------------------------------ -/

/-- Claim C1, behavior of the code at the failing input: on a transaction
whose only input is absent from the (empty) store, validate_transaction
reports a nonempty requires list, yet spend still performs the storage
update — it inserts the produced output and returns Ok — so the ledger
state is mutated without full acceptance. -/
theorem c1_spend_updates_despite_missing_input :
    validate_transaction cEnv cVerify st0 txMiss =
      .ok ⟨[cEnv.h256ToBytes 7],
           [cEnv.h256ToBytes (cEnv.hashTxIdx (cEnv.encode txMiss) 0)], 0, U64 - 1, true⟩ ∧
    spend cEnv cVerify st0 txMiss =
      .ok ⟨[(cEnv.hashTxIdx (cEnv.encode txMiss) 0, ⟨5, 11⟩)], 0⟩ ∧
    [cEnv.h256ToBytes 7] ≠ ([] : List Bytes) ∧
    [(cEnv.hashTxIdx (cEnv.encode txMiss) 0, (⟨5, 11⟩ : TransactionOutput))] ≠ st0.utxoStore :=
  ⟨rfl, rfl, by decide, by decide⟩

/-- Claim C2, counterexample: finalizing with an empty authority list does
not return normally — the unwrap of checked_div panics (modelled as none)
even though the pool held a value. -/
theorem c2_counterexample : disperse_rewards cEnv 0 [] ⟨[], 5⟩ = none := rfl

/-- Claim C2, amended: finalizing with an empty authority list always
aborts (the unwrap of the None from checked_div panics); the checked
division itself prevents a hardware division fault, but the call never
returns normally. -/
theorem c2_empty_authorities_abort (env : Env) (bh : Nat) (s : UtxoState) :
    disperse_rewards env bh [] s = none := rfl

/-- Claim C3, counterexample: with reward 1 and two authorities the share
is 0, so disperse_rewards returns early with the pool drained to 0, while
the claimed remainder 1 - 1 / 2 * 2 equals 1: the pool does not hold the
remainder. -/
theorem c3_counterexample :
    disperse_rewards cEnv 0 [21, 22] ⟨[], 1⟩ = some ⟨[], 0⟩ ∧
    (1 : Nat) - 1 / 2 * 2 = 1 ∧ (0 : Nat) ≠ 1 :=
  ⟨rfl, by decide, by decide⟩

/-- Claim C3, amended: for any reward R and authority count N > 0,
N * share + remainder = R with share = R / N and remainder
= R - share * N; after disperse_rewards the pool holds exactly remainder
when share > 0, but holds 0 (the drained reward is lost) when share = 0,
because the source returns before re-crediting the pool. -/
theorem c3_distribution_conservation (env : Env) (bh : Nat) (auths : List H256)
    (s : UtxoState) (hne : auths ≠ []) :
    auths.length * (s.rewardTotal / auths.length) +
      (s.rewardTotal - s.rewardTotal / auths.length * auths.length) = s.rewardTotal ∧
    ∃ s2, disperse_rewards env bh auths s = some s2 ∧
      s2.rewardTotal =
        if s.rewardTotal / auths.length = 0 then 0
        else s.rewardTotal - s.rewardTotal / auths.length * auths.length := by
  have hlen : auths.length ≠ 0 := fun h => hne (List.eq_nil_of_length_eq_zero h)
  have hmul : s.rewardTotal / auths.length * auths.length ≤ s.rewardTotal :=
    Nat.div_mul_le_self _ _
  refine ⟨by rw [Nat.mul_comm]; exact Nat.add_sub_cancel' hmul, ?_⟩
  by_cases hz : s.rewardTotal / auths.length = 0
  · exact ⟨⟨s.utxoStore, 0⟩, disperse_eq_of_zero env bh auths s hlen hz, by rw [if_pos hz]⟩
  · exact ⟨_, disperse_eq_of_pos env bh auths s hlen hz, by rw [if_neg hz]⟩

/-- Claim C3, witness: reward 7 over two authorities gives share 3 and
remainder 1, which the pool then holds. -/
theorem c3_witness :
    2 * (7 / 2) + (7 - 7 / 2 * 2) = 7 ∧
    ∃ s2, disperse_rewards cEnv 0 [21, 22] ⟨[], 7⟩ = some s2 ∧
      s2.rewardTotal = if 7 / 2 = 0 then 0 else 7 - 7 / 2 * 2 :=
  c3_distribution_conservation cEnv 0 [21, 22] ⟨[], 7⟩ (by decide)

/-- Claim C5: during reward distribution with a positive share, the set of
store keys never changes — a reward output is inserted only under a key
that already exists (so an absent key stays absent and nothing is inserted
for that authority) — and for a single authority whose computed key
H(output, block_height) is present, the output {share, authority} is
inserted under that key. -/
theorem c5_inverted_collision_insert (env : Env) (bh : Nat) (auths : List H256)
    (s : UtxoState) (hne : auths ≠ []) (hsh : s.rewardTotal / auths.length ≠ 0) :
    ∃ s2, disperse_rewards env bh auths s = some s2 ∧
      (∀ k, storeContains s2.utxoStore k = storeContains s.utxoStore k) ∧
      (∀ a, auths = [a] →
        storeContains s.utxoStore
          (env.hashOutputHeight ⟨s.rewardTotal / auths.length, a⟩ bh) = true →
        s2.utxoStore = storeInsert s.utxoStore
          (env.hashOutputHeight ⟨s.rewardTotal / auths.length, a⟩ bh)
          ⟨s.rewardTotal / auths.length, a⟩) := by
  have hlen : auths.length ≠ 0 := fun h => hne (List.eq_nil_of_length_eq_zero h)
  refine ⟨_, disperse_eq_of_pos env bh auths s hlen hsh, ?_, ?_⟩
  · intro k
    exact rewardFold_contains env bh _ auths s.utxoStore k
  · intro a ha hc
    subst ha
    rw [List.foldl_cons, List.foldl_nil]
    unfold rewardStep
    rw [if_pos hc]

/-- Claim C5, witness: one authority (4), pool 3, block 0, with the
computed reward key already present in the store. -/
theorem c5_witness :
    ∃ s2, disperse_rewards cEnv 0 [4] st5 = some s2 ∧
      s2.utxoStore = storeInsert st5.utxoStore (cEnv.hashOutputHeight ⟨3, 4⟩ 0) ⟨3, 4⟩ := by
  obtain ⟨s2, h1, _, h3⟩ :=
    c5_inverted_collision_insert cEnv 0 [4] st5 (by decide) (by decide)
  exact ⟨s2, h1, h3 4 rfl (by decide)⟩

/-- Claim C7: if validate_transaction rejects, spend returns the same
rejection without invoking the storage updater, and the dispatched state
(store and reward pool) is unchanged; validation itself is a pure function
of the state snapshot and mutates nothing on any path. -/
theorem c7_rejection_no_mutation (env : Env) (vf : Verifier) (s : UtxoState)
    (tx : Transaction) (e : String)
    (hrej : validate_transaction env vf s tx = .error e) :
    spend env vf s tx = .error e ∧ dispatchSpend env vf s tx = s := by
  have hs : spend env vf s tx = .error e := by
    unfold spend
    rw [hrej]
  exact ⟨hs, by unfold dispatchSpend; rw [hs]⟩

/-- Claim C7, witness: the empty transaction is rejected with "No inputs"
and the state survives unchanged. -/
theorem c7_witness :
    spend cEnv cVerify ⟨[], 3⟩ ⟨[], []⟩ = .error "No inputs" ∧
    dispatchSpend cEnv cVerify ⟨[], 3⟩ ⟨[], []⟩ = (⟨[], 3⟩ : UtxoState) :=
  c7_rejection_no_mutation cEnv cVerify ⟨[], 3⟩ ⟨[], []⟩ "No inputs" rfl

/- ------------------------------------------------------------------ -/
/- Inversion lemmas for the checked operations                         -/
/- ------------------------------------------------------------------ -/

lemma checkedAdd128_eq_some (a b c : Nat) (h : checkedAdd128 a b = some c) :
    c = a + b ∧ a + b < U128 := by
  unfold checkedAdd128 at h
  by_cases hlt : a + b < U128
  · rw [if_pos hlt] at h
    exact ⟨(Option.some.inj h).symm, hlt⟩
  · rw [if_neg hlt] at h
    exact Option.noConfusion h

lemma checkedSub_eq_some (a b c : Nat) (h : checkedSub a b = some c) :
    c = a - b ∧ b ≤ a := by
  unfold checkedSub at h
  by_cases hle : b ≤ a
  · rw [if_pos hle] at h
    exact ⟨(Option.some.inj h).symm, hle⟩
  · rw [if_neg hle] at h
    exact Option.noConfusion h

/- ------------------------------------------------------------------ -/
/- Unfolding lemmas for inputSum                                       -/
/- ------------------------------------------------------------------ -/

lemma inputSum_cons_some (st : Store) (i : TransactionInput) (rest : List TransactionInput)
    (u : TransactionOutput) (hg : storeGet st i.outpoint = some u) :
    inputSum st (i :: rest) = u.value + inputSum st rest := by
  simp only [inputSum]
  rw [hg]

lemma inputSum_cons_none (st : Store) (i : TransactionInput) (rest : List TransactionInput)
    (hg : storeGet st i.outpoint = none) :
    inputSum st (i :: rest) = inputSum st rest := by
  simp only [inputSum]
  rw [hg]
  exact Nat.zero_add _

/- ------------------------------------------------------------------ -/
/- Inversion lemmas for the input loop                                 -/
/- ------------------------------------------------------------------ -/

/-- The missing list only grows: a successful input loop returns the
initial missing list extended by a suffix. -/
lemma processInputs_missing_mono (env : Env) (vf : Verifier) (st : Store) (msg : Bytes) :
    ∀ (l : List TransactionInput) (total : Value) (missing : List Bytes)
      (t : Value) (m : List Bytes),
      processInputs env vf st msg l total missing = .ok (t, m) →
      ∃ suffix, m = missing ++ suffix := by
  intro l
  induction l with
  | nil =>
    intro total missing t m h
    simp only [processInputs, Except.ok.injEq, Prod.mk.injEq] at h
    exact ⟨[], by rw [← h.2, List.append_nil]⟩
  | cons i rest ih =>
    intro total missing t m h
    simp only [processInputs] at h
    split at h
    · split at h
      · split at h
        · exact Except.noConfusion h
        · exact ih _ _ _ _ h
      · exact Except.noConfusion h
    · obtain ⟨suffix, hs⟩ := ih _ _ _ _ h
      exact ⟨env.h256ToBytes i.outpoint :: suffix, by rw [hs, List.append_assoc]; rfl⟩

/-- A successful input loop started with an empty missing list that ends
with an empty missing list visited only present outpoints and accumulated
exactly their stored values. -/
lemma processInputs_ok_emptyMissing (env : Env) (vf : Verifier) (st : Store) (msg : Bytes) :
    ∀ (l : List TransactionInput) (total t : Value),
      processInputs env vf st msg l total [] = .ok (t, []) →
      total < U128 →
      (∀ i ∈ l, (storeGet st i.outpoint).isSome = true) ∧
      t = total + inputSum st l ∧ t < U128 := by
  intro l
  induction l with
  | nil =>
    intro total t h hb
    simp only [processInputs, Except.ok.injEq, Prod.mk.injEq] at h
    refine ⟨by simp, ?_, ?_⟩
    · rw [← h.1]
      simp [inputSum]
    · rw [← h.1]
      exact hb
  | cons i rest ih =>
    intro total t h hb
    simp only [processInputs] at h
    split at h
    · rename_i u hg
      split at h
      · split at h
        · exact Except.noConfusion h
        · rename_i t2 hca
          obtain ⟨hc, hlt⟩ := checkedAdd128_eq_some total u.value t2 hca
          obtain ⟨hmem, hsum, hfin⟩ := ih t2 t h (by rw [hc]; exact hlt)
          refine ⟨?_, ?_, hfin⟩
          · intro j hj
            rcases List.mem_cons.mp hj with hj | hj
            · subst hj
              rw [hg]
              rfl
            · exact hmem j hj
          · rw [hsum, hc, inputSum_cons_some st i rest u hg, Nat.add_assoc]
      · exact Except.noConfusion h
    · rename_i hg
      exfalso
      obtain ⟨suffix, hs⟩ := processInputs_missing_mono env vf st msg rest total _ t [] h
      simp at hs

/- ------------------------------------------------------------------ -/
/- Inversion lemma for the output loop                                 -/
/- ------------------------------------------------------------------ -/

/-- A successful output loop accumulated exactly the sum of the output
values, within the u128 bound. -/
lemma processOutputs_ok_sum (env : Env) (st : Store) (txEnc : Bytes) :
    ∀ (l : List TransactionOutput) (idx : Nat) (total : Value) (acc : List Bytes)
      (t : Value) (nl : List Bytes),
      processOutputs env st txEnc l idx total acc = .ok (t, nl) →
      total < U128 →
      t = total + outputSum l ∧ t < U128 := by
  intro l
  induction l with
  | nil =>
    intro idx total acc t nl h hb
    simp only [processOutputs, Except.ok.injEq, Prod.mk.injEq] at h
    exact ⟨by rw [← h.1]; simp [outputSum], by rw [← h.1]; exact hb⟩
  | cons o rest ih =>
    intro idx total acc t nl h hb
    simp only [processOutputs] at h
    split at h
    · exact Except.noConfusion h
    · split at h
      · exact Except.noConfusion h
      · split at h
        · exact Except.noConfusion h
        · split at h
          · exact Except.noConfusion h
          · rename_i t2 hca
            obtain ⟨hc, hlt⟩ := checkedAdd128_eq_some total o.value t2 hca
            obtain ⟨hsum, hfin⟩ := ih _ _ _ _ _ h (by rw [hc]; exact hlt)
            refine ⟨?_, hfin⟩
            rw [hsum, hc]
            show total + o.value + outputSum rest = total + (o.value + outputSum rest)
            rw [Nat.add_assoc]

/- ------------------------------------------------------------------ -/
/- Inversion of validate_transaction on success                        -/
/- ------------------------------------------------------------------ -/

/-- A successful validate_transaction decomposes into a successful input
loop and output loop after all four structural checks passed, and the
returned descriptor is built from their results: requires is the missing
list, provides the new-utxo list, and the priority is the u64-cast fee
when nothing was missing and 0 otherwise. -/
lemma validate_ok_cases (env : Env) (vf : Verifier) (s : UtxoState) (tx : Transaction)
    (v : ValidTransaction) (hv : validate_transaction env vf s tx = .ok v) :
    ∃ ti missing tOut nl,
      processInputs env vf s.utxoStore (get_simple_transaction env tx) tx.inputs 0 [] =
        .ok (ti, missing) ∧
      processOutputs env s.utxoStore (env.encode tx) tx.outputs 0 0 [] = .ok (tOut, nl) ∧
      tx.inputs ≠ [] ∧ tx.outputs ≠ [] ∧
      tx.inputs.dedup.length = tx.inputs.length ∧
      tx.outputs.dedup.length = tx.outputs.length ∧
      v.requires = missing ∧ v.provides = nl ∧ v.longevity = U64 - 1 ∧ v.propagate = true ∧
      ((missing = [] ∧ tOut ≤ ti ∧ v.priority = (ti - tOut) % U64) ∨
       (missing ≠ [] ∧ v.priority = 0)) := by
  unfold validate_transaction at hv
  split at hv
  · exact Except.noConfusion hv
  rename_i hni
  split at hv
  · exact Except.noConfusion hv
  rename_i hno
  split at hv
  · exact Except.noConfusion hv
  rename_i hdi
  split at hv
  · exact Except.noConfusion hv
  rename_i hdo
  have hni2 : tx.inputs ≠ [] := by
    intro h
    exact hni (by rw [h]; rfl)
  have hno2 : tx.outputs ≠ [] := by
    intro h
    exact hno (by rw [h]; rfl)
  split at hv
  · exact Except.noConfusion hv
  rename_i ti missing hpi
  split at hv
  · exact Except.noConfusion hv
  rename_i tOut nl hpo
  split at hv
  · rename_i hme
    split at hv
    · rename_i hle
      split at hv
      · exact Except.noConfusion hv
      · rename_i reward hcs
        have hvv := Except.ok.inj hv
        subst hvv
        obtain ⟨hr, _⟩ := checkedSub_eq_some ti tOut reward hcs
        refine ⟨ti, missing, tOut, nl, hpi, hpo, hni2, hno2, not_not.mp hdi, not_not.mp hdo,
          rfl, rfl, rfl, rfl, Or.inl ⟨?_, hle, ?_⟩⟩
        · exact List.isEmpty_iff.mp hme
        · rw [hr]
    · exact Except.noConfusion hv
  · rename_i hme
    have hvv := Except.ok.inj hv
    subst hvv
    refine ⟨ti, missing, tOut, nl, hpi, hpo, hni2, hno2, not_not.mp hdi, not_not.mp hdo,
      rfl, rfl, rfl, rfl, Or.inr ⟨?_, rfl⟩⟩
    intro hnil
    subst hnil
    exact hme rfl

/-- Facts about an acceptance with an empty requires list: every input's
outpoint is present, the total output value is bounded by the total input
value (both genuine sums, below 2^128), and the priority is the fee
truncated to u64. -/
lemma validate_no_missing_facts (env : Env) (vf : Verifier) (s : UtxoState) (tx : Transaction)
    (v : ValidTransaction) (hv : validate_transaction env vf s tx = .ok v)
    (hreq : v.requires = []) :
    (∀ i ∈ tx.inputs, (storeGet s.utxoStore i.outpoint).isSome = true) ∧
    outputSum tx.outputs ≤ inputSum s.utxoStore tx.inputs ∧
    inputSum s.utxoStore tx.inputs < U128 ∧
    v.priority = (inputSum s.utxoStore tx.inputs - outputSum tx.outputs) % U64 := by
  obtain ⟨ti, missing, tOut, nl, hpi, hpo, _, _, _, _, hr, _, _, _, hcase⟩ :=
    validate_ok_cases env vf s tx v hv
  rw [hr] at hreq
  subst hreq
  rcases hcase with ⟨_, hle, hprio⟩ | ⟨hne, _⟩
  · obtain ⟨hmem, hsum, hlt⟩ :=
      processInputs_ok_emptyMissing env vf s.utxoStore _ tx.inputs 0 ti hpi (by decide)
    obtain ⟨hosum, _⟩ :=
      processOutputs_ok_sum env s.utxoStore _ tx.outputs 0 0 [] tOut nl hpo (by decide)
    rw [Nat.zero_add] at hsum hosum
    subst hsum
    subst hosum
    exact ⟨hmem, hle, hlt, hprio⟩
  · exact absurd rfl hne

/- ------------------------------------------------------------------ -/
/- Claim C6                                                            -/
/- ------------------------------------------------------------------ -/

/-- Claim C6: for every transaction accepted with an empty requires list,
every consumed outpoint is present in the store, the output total does not
exceed the input total, the conservation equation
outputSum + fee = inputSum holds exactly (fee the checked difference), the
input total fits in u128, and the descriptor's priority is the fee cast to
u64. -/
theorem c6_conservation (env : Env) (vf : Verifier) (s : UtxoState) (tx : Transaction)
    (v : ValidTransaction) (hv : validate_transaction env vf s tx = .ok v)
    (hreq : v.requires = []) :
    (∀ i ∈ tx.inputs, (storeGet s.utxoStore i.outpoint).isSome = true) ∧
    outputSum tx.outputs ≤ inputSum s.utxoStore tx.inputs ∧
    outputSum tx.outputs + (inputSum s.utxoStore tx.inputs - outputSum tx.outputs) =
      inputSum s.utxoStore tx.inputs ∧
    inputSum s.utxoStore tx.inputs < U128 ∧
    v.priority = (inputSum s.utxoStore tx.inputs - outputSum tx.outputs) % U64 := by
  obtain ⟨hmem, hle, hlt, hprio⟩ := validate_no_missing_facts env vf s tx v hv hreq
  exact ⟨hmem, hle, Nat.add_sub_cancel' hle, hlt, hprio⟩

/-- Claim C6, witness: spending the value-100 utxo into a value-40 output
conserves value with fee 60. -/
theorem c6_witness :
    (∀ i ∈ txW.inputs, (storeGet stW.utxoStore i.outpoint).isSome = true) ∧
    outputSum txW.outputs ≤ inputSum stW.utxoStore txW.inputs ∧
    outputSum txW.outputs + (inputSum stW.utxoStore txW.inputs - outputSum txW.outputs) =
      inputSum stW.utxoStore txW.inputs ∧
    inputSum stW.utxoStore txW.inputs < U128 ∧
    (⟨[], [cEnv.h256ToBytes (cEnv.hashTxIdx (cEnv.encode txW) 0)], 60, U64 - 1, true⟩ :
        ValidTransaction).priority =
      (inputSum stW.utxoStore txW.inputs - outputSum txW.outputs) % U64 :=
  c6_conservation cEnv cVerify stW txW
    ⟨[], [cEnv.h256ToBytes (cEnv.hashTxIdx (cEnv.encode txW) 0)], 60, U64 - 1, true⟩
    rfl rfl

/- ------------------------------------------------------------------ -/
/- Claim C4                                                            -/
/- ------------------------------------------------------------------ -/

/-- A successful output loop guarantees the insertion loop of
update_storage succeeds on the same outputs from the same start index over
any store: the u64 index checks are the same ones. -/
lemma processOutputs_insertOutputs (env : Env) (st : Store) (txEnc : Bytes) :
    ∀ (l : List TransactionOutput) (idx : Nat) (total : Value) (acc : List Bytes)
      (r : Value × List Bytes),
      processOutputs env st txEnc l idx total acc = .ok r →
      ∀ st2 : Store, ∃ st3, insertOutputs env txEnc st2 l idx = .ok st3 := by
  intro l
  induction l with
  | nil =>
    intro idx total acc r h st2
    exact ⟨st2, rfl⟩
  | cons o rest ih =>
    intro idx total acc r h st2
    simp only [processOutputs] at h
    split at h
    · exact Except.noConfusion h
    · split at h
      · exact Except.noConfusion h
      · rename_i idx2 hca
        split at h
        · exact Except.noConfusion h
        · split at h
          · exact Except.noConfusion h
          · obtain ⟨st3, h3⟩ := ih _ _ _ _ h (storeInsert st2 (env.hashTxIdx txEnc idx) o)
            refine ⟨st3, ?_⟩
            simp only [insertOutputs]
            rw [hca]
            exact h3

/-- After a successful validation, update_storage succeeds whenever the
pool credit stays below 2^128, and the new pool is the old pool plus the
passed reward. -/
lemma update_storage_ok (env : Env) (vf : Verifier) (s : UtxoState) (tx : Transaction)
    (v : ValidTransaction) (hv : validate_transaction env vf s tx = .ok v)
    (reward : Value) (hof : s.rewardTotal + reward < U128) :
    ∃ st3, update_storage env s tx reward = .ok ⟨st3, s.rewardTotal + reward⟩ := by
  obtain ⟨ti, missing, tOut, nl, hpi, hpo, _, _, _, _, _, _, _, _, _⟩ :=
    validate_ok_cases env vf s tx v hv
  obtain ⟨st3, h3⟩ := processOutputs_insertOutputs env s.utxoStore (env.encode tx)
    tx.outputs 0 0 [] (tOut, nl) hpo (removeInputs s.utxoStore tx.inputs)
  refine ⟨st3, ?_⟩
  unfold update_storage checkedAdd128
  rw [if_pos hof]
  show (match insertOutputs env (env.encode tx) (removeInputs s.utxoStore tx.inputs)
          tx.outputs 0 with
        | .error e => (.error e : Except String UtxoState)
        | .ok st => .ok ⟨st, s.rewardTotal + reward⟩) =
      .ok ⟨st3, s.rewardTotal + reward⟩
  rw [h3]

/-- Claim C4, counterexample: with a fee of exactly 2^64 (input 2^64 + 1,
output 1) the acceptance descriptor's priority is 0, not the fee, and
spend credits the reward pool with 0: the u64 cast truncates. -/
theorem c4_counterexample :
    validate_transaction cEnv cVerify st4 tx4 =
      .ok ⟨[], [cEnv.h256ToBytes (cEnv.hashTxIdx (cEnv.encode tx4) 0)], 0, U64 - 1, true⟩ ∧
    inputSum st4.utxoStore tx4.inputs - outputSum tx4.outputs = 18446744073709551616 ∧
    spend cEnv cVerify st4 tx4 =
      .ok ⟨[(cEnv.hashTxIdx (cEnv.encode tx4) 0, ⟨1, 77⟩)], 0⟩ ∧
    (0 : Nat) ≠ 18446744073709551616 :=
  ⟨rfl, by decide, rfl, by decide⟩

/-- Claim C4, amended: on acceptance with no missing inputs the priority
equals the fee reduced modulo 2^64 (the priority field is u64), and spend
credits the reward pool by exactly that truncated value (when the credit
fits u128); the credit is exact only for fees below 2^64. -/
theorem c4_priority_fee_truncated (env : Env) (vf : Verifier) (s : UtxoState)
    (tx : Transaction) (v : ValidTransaction)
    (hv : validate_transaction env vf s tx = .ok v) (hreq : v.requires = [])
    (hof : s.rewardTotal + v.priority < U128) :
    v.priority = (inputSum s.utxoStore tx.inputs - outputSum tx.outputs) % U64 ∧
    ∃ s2, spend env vf s tx = .ok s2 ∧
      s2.rewardTotal =
        s.rewardTotal + (inputSum s.utxoStore tx.inputs - outputSum tx.outputs) % U64 := by
  obtain ⟨_, _, _, hprio⟩ := validate_no_missing_facts env vf s tx v hv hreq
  obtain ⟨st3, h3⟩ := update_storage_ok env vf s tx v hv v.priority hof
  refine ⟨hprio, ⟨st3, s.rewardTotal + v.priority⟩, ?_, ?_⟩
  · unfold spend
    rw [hv]
    exact h3
  · show s.rewardTotal + v.priority =
      s.rewardTotal + (inputSum s.utxoStore tx.inputs - outputSum tx.outputs) % U64
    rw [hprio]

/-- Claim C4, witness: the fee-60 spend has priority 60 = 60 mod 2^64 and
credits the pool by 60. -/
theorem c4_witness :
    (⟨[], [cEnv.h256ToBytes (cEnv.hashTxIdx (cEnv.encode txW) 0)], 60, U64 - 1, true⟩ :
        ValidTransaction).priority =
      (inputSum stW.utxoStore txW.inputs - outputSum txW.outputs) % U64 ∧
    ∃ s2, spend cEnv cVerify stW txW = .ok s2 ∧
      s2.rewardTotal =
        stW.rewardTotal + (inputSum stW.utxoStore txW.inputs - outputSum txW.outputs) % U64 :=
  c4_priority_fee_truncated cEnv cVerify stW txW
    ⟨[], [cEnv.h256ToBytes (cEnv.hashTxIdx (cEnv.encode txW) 0)], 60, U64 - 1, true⟩
    rfl rfl (by decide)

/- ------------------------------------------------------------------ -/
/- Claim C8                                                            -/
/- ------------------------------------------------------------------ -/

/-- The BTreeMap size comparison of the source: the dedup length equals
the list length exactly when the list has no duplicate record. -/
lemma dedup_length_iff {α : Type} [DecidableEq α] (l : List α) :
    l.dedup.length = l.length ↔ l.Nodup := by
  constructor
  · intro h
    have he := List.Sublist.eq_of_length (List.dedup_sublist l) h
    rw [← he]
    exact List.nodup_dedup l
  · intro h
    rw [List.dedup_eq_self.mpr h]

/-- The input loop can only fail with its two own error strings. -/
lemma processInputs_error_set (env : Env) (vf : Verifier) (st : Store) (msg : Bytes) :
    ∀ (l : List TransactionInput) (total : Value) (missing : List Bytes) (e : String),
      processInputs env vf st msg l total missing = .error e →
      e = "signature must be valid" ∨ e = "input value overflow" := by
  intro l
  induction l with
  | nil =>
    intro total missing e h
    simp only [processInputs] at h
    exact Except.noConfusion h
  | cons i rest ih =>
    intro total missing e h
    simp only [processInputs] at h
    split at h
    · split at h
      · split at h
        · exact Or.inr (Except.error.inj h).symm
        · exact ih _ _ _ h
      · exact Or.inl (Except.error.inj h).symm
    · exact ih _ _ _ h

/-- The output loop can only fail with its four own error strings. -/
lemma processOutputs_error_set (env : Env) (st : Store) (txEnc : Bytes) :
    ∀ (l : List TransactionOutput) (idx : Nat) (total : Value) (acc : List Bytes) (e : String),
      processOutputs env st txEnc l idx total acc = .error e →
      e = "Output value must be nonzero" ∨ e = "output index overflow" ∨
      e = "output already exists" ∨ e = "output value overflow" := by
  intro l
  induction l with
  | nil =>
    intro idx total acc e h
    simp only [processOutputs] at h
    exact Except.noConfusion h
  | cons o rest ih =>
    intro idx total acc e h
    simp only [processOutputs] at h
    split at h
    · exact Or.inl (Except.error.inj h).symm
    · split at h
      · exact Or.inr (Or.inl (Except.error.inj h).symm)
      · split at h
        · exact Or.inr (Or.inr (Or.inl (Except.error.inj h).symm))
        · split at h
          · exact Or.inr (Or.inr (Or.inr (Except.error.inj h).symm))
          · exact ih _ _ _ _ h

/-- The duplicate-input rejection string is produced only by the
duplicate-input check: it implies the inputs are not pairwise distinct. -/
lemma validate_dup_input_error (env : Env) (vf : Verifier) (s : UtxoState) (tx : Transaction)
    (h : validate_transaction env vf s tx = .error "each input must only be used once") :
    ¬ tx.inputs.Nodup := by
  unfold validate_transaction at h
  split at h
  · exact absurd (Except.error.inj h) (by decide)
  split at h
  · exact absurd (Except.error.inj h) (by decide)
  split at h
  · rename_i hne
    intro hnd
    exact hne ((dedup_length_iff tx.inputs).mpr hnd)
  split at h
  · exact absurd (Except.error.inj h) (by decide)
  split at h
  · rename_i e2 hpi
    have he := Except.error.inj h
    rcases processInputs_error_set env vf s.utxoStore _ tx.inputs 0 [] e2 hpi with h1 | h1 <;>
      (rw [h1] at he; exact absurd he (by decide))
  rename_i ti missing hpi
  split at h
  · rename_i e2 hpo
    have he := Except.error.inj h
    rcases processOutputs_error_set env s.utxoStore _ tx.outputs 0 0 [] e2 hpo with
      h1 | h1 | h1 | h1 <;> (rw [h1] at he; exact absurd he (by decide))
  rename_i tOut nl hpo
  split at h
  · split at h
    · split at h
      · exact absurd (Except.error.inj h) (by decide)
      · exact Except.noConfusion h
    · exact absurd (Except.error.inj h) (by decide)
  · exact Except.noConfusion h

/-- The duplicate-output rejection string is produced only by the
duplicate-output check: it implies the outputs are not pairwise
distinct. -/
lemma validate_dup_output_error (env : Env) (vf : Verifier) (s : UtxoState) (tx : Transaction)
    (h : validate_transaction env vf s tx = .error "each output must only be used once") :
    ¬ tx.outputs.Nodup := by
  unfold validate_transaction at h
  split at h
  · exact absurd (Except.error.inj h) (by decide)
  split at h
  · exact absurd (Except.error.inj h) (by decide)
  split at h
  · exact absurd (Except.error.inj h) (by decide)
  split at h
  · rename_i hne
    intro hnd
    exact hne ((dedup_length_iff tx.outputs).mpr hnd)
  split at h
  · rename_i e2 hpi
    have he := Except.error.inj h
    rcases processInputs_error_set env vf s.utxoStore _ tx.inputs 0 [] e2 hpi with h1 | h1 <;>
      (rw [h1] at he; exact absurd he (by decide))
  rename_i ti missing hpi
  split at h
  · rename_i e2 hpo
    have he := Except.error.inj h
    rcases processOutputs_error_set env s.utxoStore _ tx.outputs 0 0 [] e2 hpo with
      h1 | h1 | h1 | h1 <;> (rw [h1] at he; exact absurd he (by decide))
  rename_i tOut nl hpo
  split at h
  · split at h
    · split at h
      · exact absurd (Except.error.inj h) (by decide)
      · exact Except.noConfusion h
    · exact absurd (Except.error.inj h) (by decide)
  · exact Except.noConfusion h

/-- Claim C8: the duplicate checks reject exactly on fully-equal records —
a transaction whose inputs (or outputs) contain a duplicate record is
always rejected; when the inputs (or outputs) are pairwise distinct the
corresponding duplicate rejection cannot occur; and two inputs sharing an
outpoint but carrying different witness bytes are pairwise distinct, so
that pair is not caught by these checks. -/
theorem c8_duplicate_detection (env : Env) (vf : Verifier) (s : UtxoState) (tx : Transaction)
    (op : H256) (w1 w2 : H512) :
    (¬ tx.inputs.Nodup → ∃ e, validate_transaction env vf s tx = .error e) ∧
    (¬ tx.outputs.Nodup → ∃ e, validate_transaction env vf s tx = .error e) ∧
    (tx.inputs.Nodup →
      validate_transaction env vf s tx ≠ .error "each input must only be used once") ∧
    (tx.outputs.Nodup →
      validate_transaction env vf s tx ≠ .error "each output must only be used once") ∧
    (w1 ≠ w2 → ([⟨op, w1⟩, ⟨op, w2⟩] : List TransactionInput).Nodup) := by
  refine ⟨?_, ?_, ?_, ?_, ?_⟩
  · intro hnd
    cases hval : validate_transaction env vf s tx with
    | error e => exact ⟨e, rfl⟩
    | ok v =>
      obtain ⟨ti, missing, tOut, nl, _, _, _, _, hdi, _, _, _, _, _, _⟩ :=
        validate_ok_cases env vf s tx v hval
      exact absurd ((dedup_length_iff tx.inputs).mp hdi) hnd
  · intro hnd
    cases hval : validate_transaction env vf s tx with
    | error e => exact ⟨e, rfl⟩
    | ok v =>
      obtain ⟨ti, missing, tOut, nl, _, _, _, _, _, hdo, _, _, _, _, _⟩ :=
        validate_ok_cases env vf s tx v hval
      exact absurd ((dedup_length_iff tx.outputs).mp hdo) hnd
  · intro hnd hbad
    exact validate_dup_input_error env vf s tx hbad hnd
  · intro hnd hbad
    exact validate_dup_output_error env vf s tx hbad hnd
  · intro hw
    refine List.nodup_cons.mpr ⟨?_, List.nodup_singleton _⟩
    intro hmem
    rw [List.mem_singleton] at hmem
    injection hmem with h1 h2
    exact hw h2

/-- Claim C8, witness: a transaction with two identical inputs is
rejected, and two inputs with equal outpoint 9 but witnesses 1 and 2 are
distinct records. -/
theorem c8_witness :
    (∃ e, validate_transaction cEnv cVerify st0 ⟨[⟨7, 3⟩, ⟨7, 3⟩], [⟨5, 11⟩]⟩ = .error e) ∧
    ([⟨9, 1⟩, ⟨9, 2⟩] : List TransactionInput).Nodup :=
  ⟨(c8_duplicate_detection cEnv cVerify st0 ⟨[⟨7, 3⟩, ⟨7, 3⟩], [⟨5, 11⟩]⟩ 9 1 2).1 (by decide),
   (c8_duplicate_detection cEnv cVerify st0 ⟨[⟨7, 3⟩, ⟨7, 3⟩], [⟨5, 11⟩]⟩ 9 1 2).2.2.2.2
     (by decide)⟩

/- ------------------------------------------------------------------ -/
/- Unfolding equations for the loops                                   -/
/- ------------------------------------------------------------------ -/

lemma processInputs_cons_some_eq (env : Env) (vf : Verifier) (st : Store) (msg : Bytes)
    (i : TransactionInput) (rest : List TransactionInput) (total : Value)
    (missing : List Bytes) (u : TransactionOutput)
    (hg : storeGet st i.outpoint = some u) :
    processInputs env vf st msg (i :: rest) total missing =
      if vf i.sigscript msg u.pubkey then
        match checkedAdd128 total u.value with
        | none => .error "input value overflow"
        | some total2 => processInputs env vf st msg rest total2 missing
      else .error "signature must be valid" := by
  simp only [processInputs]
  rw [hg]

lemma processInputs_cons_none_eq (env : Env) (vf : Verifier) (st : Store) (msg : Bytes)
    (i : TransactionInput) (rest : List TransactionInput) (total : Value)
    (missing : List Bytes) (hg : storeGet st i.outpoint = none) :
    processInputs env vf st msg (i :: rest) total missing =
      processInputs env vf st msg rest total (missing ++ [env.h256ToBytes i.outpoint]) := by
  simp only [processInputs]
  rw [hg]

lemma processOutputs_cons_eq (env : Env) (st : Store) (txEnc : Bytes)
    (o : TransactionOutput) (rest : List TransactionOutput) (idx : Nat) (total : Value)
    (acc : List Bytes) (ho : ¬ o.value = 0) :
    processOutputs env st txEnc (o :: rest) idx total acc =
      match checkedAdd64 idx 1 with
      | none => .error "output index overflow"
      | some idx2 =>
        if storeContains st (env.hashTxIdx txEnc idx) then .error "output already exists"
        else
          match checkedAdd128 total o.value with
          | none => .error "output value overflow"
          | some total2 =>
            processOutputs env st txEnc rest idx2 total2
              (acc ++ [env.h256ToBytes (env.hashTxIdx txEnc idx)]) := by
  simp only [processOutputs]
  rw [if_neg ho]

/- ------------------------------------------------------------------ -/
/- Claim C10                                                           -/
/- ------------------------------------------------------------------ -/

/-- The input loop consults the verifier only at present outpoints: two
verifiers that agree at every present input produce identical runs, for
any witness bytes carried by absent inputs. -/
lemma processInputs_congr (env : Env) (vf1 vf2 : Verifier) (st : Store) (msg : Bytes) :
    ∀ (l : List TransactionInput) (total : Value) (missing : List Bytes),
      (∀ i ∈ l, ∀ u, storeGet st i.outpoint = some u →
        vf1 i.sigscript msg u.pubkey = vf2 i.sigscript msg u.pubkey) →
      processInputs env vf1 st msg l total missing =
        processInputs env vf2 st msg l total missing := by
  intro l
  induction l with
  | nil =>
    intro total missing hagree
    rfl
  | cons i rest ih =>
    intro total missing hagree
    have hagree2 : ∀ j ∈ rest, ∀ u, storeGet st j.outpoint = some u →
        vf1 j.sigscript msg u.pubkey = vf2 j.sigscript msg u.pubkey :=
      fun j hj u hg2 => hagree j (List.mem_cons_of_mem i hj) u hg2
    cases hg : storeGet st i.outpoint with
    | some u =>
      rw [processInputs_cons_some_eq env vf1 st msg i rest total missing u hg,
          processInputs_cons_some_eq env vf2 st msg i rest total missing u hg,
          hagree i (List.mem_cons_self i rest) u hg]
      cases hvb : vf2 i.sigscript msg u.pubkey with
      | false =>
        rw [if_neg Bool.false_ne_true, if_neg Bool.false_ne_true]
      | true =>
        rw [if_pos rfl, if_pos rfl]
        cases hca : checkedAdd128 total u.value with
        | none => rfl
        | some total2 => exact ih total2 missing hagree2
    | none =>
      rw [processInputs_cons_none_eq env vf1 st msg i rest total missing hg,
          processInputs_cons_none_eq env vf2 st msg i rest total missing hg]
      exact ih total _ hagree2

/-- Claim C10: an input whose outpoint is absent from the store undergoes
no signature verification — validate_transaction's result is unchanged
under any replacement of the verifier that agrees on present inputs, so
arbitrary (even invalid) witness bytes on a missing input can never cause
a rejection on account of that input. -/
theorem c10_missing_input_no_verification (env : Env) (vf1 vf2 : Verifier)
    (s : UtxoState) (tx : Transaction)
    (hagree : ∀ i ∈ tx.inputs, ∀ u, storeGet s.utxoStore i.outpoint = some u →
      vf1 i.sigscript (get_simple_transaction env tx) u.pubkey =
        vf2 i.sigscript (get_simple_transaction env tx) u.pubkey) :
    validate_transaction env vf1 s tx = validate_transaction env vf2 s tx := by
  unfold validate_transaction
  rw [processInputs_congr env vf1 vf2 s.utxoStore (get_simple_transaction env tx)
      tx.inputs 0 [] hagree]

/-- Claim C10, witness: over the empty store the always-true and the
always-false verifiers validate the missing-input transaction
identically. -/
theorem c10_witness :
    validate_transaction cEnv cVerify st0 txMiss =
      validate_transaction cEnv vfFalse st0 txMiss :=
  c10_missing_input_no_verification cEnv cVerify vfFalse st0 txMiss
    (fun i hi u hu => by simp [st0, storeGet] at hu)

/- ------------------------------------------------------------------ -/
/- Claim C9                                                            -/
/- ------------------------------------------------------------------ -/

/-- Splitting range (n + 1) at its head under an index shift. -/
lemma range_map_shift {β : Type} (g : Nat → β) : ∀ (n idx : Nat),
    (List.range (n + 1)).map (fun j => g (idx + j)) =
      g idx :: (List.range n).map (fun j => g (idx + 1 + j)) := by
  intro n
  induction n with
  | zero =>
    intro idx
    rw [show List.range 1 = [0] from rfl, show List.range 0 = ([] : List Nat) from rfl,
        List.map_cons, List.map_nil, List.map_nil, Nat.add_zero]
  | succ n ih =>
    intro idx
    have h1 : idx + (n + 1) = idx + 1 + n := by omega
    rw [List.range_succ, List.map_append, ih idx, List.range_succ, List.map_append]
    simp [h1]

/-- Full characterization of the input loop when every present input
verifies and the accumulated value fits u128: it succeeds with the sum of
the present values and appends the byte views of the absent outpoints in
order. -/
lemma processInputs_char (env : Env) (vf : Verifier) (st : Store) (msg : Bytes) :
    ∀ (l : List TransactionInput) (total : Nat) (missing : List Bytes),
      (∀ i ∈ l, ∀ u, storeGet st i.outpoint = some u →
        vf i.sigscript msg u.pubkey = true) →
      total + inputSum st l < U128 →
      processInputs env vf st msg l total missing =
        .ok (total + inputSum st l,
             missing ++ (l.filter (fun i => (storeGet st i.outpoint).isNone)).map
               (fun i => env.h256ToBytes i.outpoint)) := by
  intro l
  induction l with
  | nil =>
    intro total missing hvf hb
    simp [processInputs, inputSum]
  | cons i rest ih =>
    intro total missing hvf hb
    have hvf2 : ∀ j ∈ rest, ∀ u, storeGet st j.outpoint = some u →
        vf j.sigscript msg u.pubkey = true :=
      fun j hj u hg2 => hvf j (List.mem_cons_of_mem i hj) u hg2
    cases hg : storeGet st i.outpoint with
    | some u =>
      have hisum := inputSum_cons_some st i rest u hg
      rw [hisum] at hb
      have hlt : total + u.value < U128 := by omega
      rw [processInputs_cons_some_eq env vf st msg i rest total missing u hg,
          if_pos (hvf i (List.mem_cons_self i rest) u hg),
          show checkedAdd128 total u.value = some (total + u.value) from by
            unfold checkedAdd128; rw [if_pos hlt]]
      show processInputs env vf st msg rest (total + u.value) missing = _
      rw [ih (total + u.value) missing hvf2 (by omega), hisum]
      have hfilt : (i :: rest).filter (fun x => (storeGet st x.outpoint).isNone) =
          rest.filter (fun x => (storeGet st x.outpoint).isNone) := by
        simp [List.filter_cons, hg]
      rw [hfilt, ← Nat.add_assoc]
    | none =>
      have hisum := inputSum_cons_none st i rest hg
      rw [hisum] at hb
      rw [processInputs_cons_none_eq env vf st msg i rest total missing hg,
          ih total (missing ++ [env.h256ToBytes i.outpoint]) hvf2 hb, hisum]
      have hfilt : (i :: rest).filter (fun x => (storeGet st x.outpoint).isNone) =
          i :: rest.filter (fun x => (storeGet st x.outpoint).isNone) := by
        simp [List.filter_cons, hg]
      rw [hfilt, List.map_cons, List.append_assoc]
      rfl

/-- Full characterization of the output loop when every value is nonzero,
every computed key is fresh, and the sums and indices stay in bounds: it
succeeds with the sum of the values and appends the byte views of the keys
H(encode(tx), index) in index order. -/
lemma processOutputs_char (env : Env) (st : Store) (txEnc : Bytes) :
    ∀ (l : List TransactionOutput) (idx : Nat) (total : Nat) (acc : List Bytes),
      (∀ o ∈ l, o.value ≠ 0) →
      (∀ j, j < l.length → storeContains st (env.hashTxIdx txEnc (idx + j)) = false) →
      total + outputSum l < U128 →
      idx + l.length < U64 →
      processOutputs env st txEnc l idx total acc =
        .ok (total + outputSum l,
             acc ++ (List.range l.length).map
               (fun j => env.h256ToBytes (env.hashTxIdx txEnc (idx + j)))) := by
  intro l
  induction l with
  | nil =>
    intro idx total acc h0 hf hb hi
    simp [processOutputs, outputSum]
  | cons o rest ih =>
    intro idx total acc h0 hf hb hi
    have hosum : outputSum (o :: rest) = o.value + outputSum rest := rfl
    have hlen : (o :: rest).length = rest.length + 1 := rfl
    rw [hosum] at hb
    rw [hlen] at hi
    have hi1 : idx + 1 < U64 := by omega
    have hc0 : storeContains st (env.hashTxIdx txEnc idx) = false := by
      have h := hf 0 (by rw [hlen]; omega)
      rwa [Nat.add_zero] at h
    have hlt : total + o.value < U128 := by omega
    rw [processOutputs_cons_eq env st txEnc o rest idx total acc
          (h0 o (List.mem_cons_self o rest)),
        show checkedAdd64 idx 1 = some (idx + 1) from by
          unfold checkedAdd64; rw [if_pos hi1]]
    show (if storeContains st (env.hashTxIdx txEnc idx) = true then
            (.error "output already exists" : Except String (Value × List Bytes))
          else
            match checkedAdd128 total o.value with
            | none => .error "output value overflow"
            | some total2 =>
              processOutputs env st txEnc rest (idx + 1) total2
                (acc ++ [env.h256ToBytes (env.hashTxIdx txEnc idx)])) = _
    rw [if_neg (by simp [hc0]),
        show checkedAdd128 total o.value = some (total + o.value) from by
          unfold checkedAdd128; rw [if_pos hlt]]
    show processOutputs env st txEnc rest (idx + 1) (total + o.value)
        (acc ++ [env.h256ToBytes (env.hashTxIdx txEnc idx)]) = _
    rw [ih (idx + 1) (total + o.value) (acc ++ [env.h256ToBytes (env.hashTxIdx txEnc idx)])
        (fun o2 ho2 => h0 o2 (List.mem_cons_of_mem o ho2))
        (fun j hj => by
          have h := hf (j + 1) (by rw [hlen]; omega)
          rwa [show idx + (j + 1) = idx + 1 + j from by omega] at h)
        (by omega) (by omega)]
    rw [hosum, hlen, ← Nat.add_assoc,
        range_map_shift (fun k => env.h256ToBytes (env.hashTxIdx txEnc k)) rest.length idx,
        List.append_assoc]
    rfl

/-- Claim C9, counterexample: a transaction that passes all structural
checks and has an absent input (outpoint 7) is nevertheless rejected,
because its other, present input fails signature verification: a missing
input does not guarantee an acceptance descriptor. -/
theorem c9_counterexample :
    storeGet st9.utxoStore 7 = none ∧
    (⟨7, 3⟩ : TransactionInput) ∈ tx9.inputs ∧
    tx9.inputs ≠ [] ∧ tx9.outputs ≠ [] ∧ tx9.inputs.Nodup ∧ tx9.outputs.Nodup ∧
    validate_transaction cEnv vfFalse st9 tx9 = .error "signature must be valid" :=
  ⟨rfl, by decide, by decide, by decide, by decide, by decide, rfl⟩

/-- Claim C9, amended: a structurally valid transaction with an absent
input is accepted only when additionally every present input passes
signature verification with in-bounds value accumulation and every output
passes the zero-value, fresh-key and bounds checks; the descriptor then
carries exactly the absent outpoints (in order, as bytes) as requires, the
keys H(encode(tx), index) as provides, and priority 0. -/
theorem c9_missing_inputs_descriptor (env : Env) (vf : Verifier) (s : UtxoState)
    (tx : Transaction)
    (h1 : tx.inputs ≠ []) (h2 : tx.outputs ≠ [])
    (h3 : tx.inputs.Nodup) (h4 : tx.outputs.Nodup)
    (h5 : ∃ i ∈ tx.inputs, storeGet s.utxoStore i.outpoint = none)
    (h6 : ∀ i ∈ tx.inputs, ∀ u, storeGet s.utxoStore i.outpoint = some u →
      vf i.sigscript (get_simple_transaction env tx) u.pubkey = true)
    (h7 : inputSum s.utxoStore tx.inputs < U128)
    (h8 : ∀ o ∈ tx.outputs, o.value ≠ 0)
    (h9 : ∀ j, j < tx.outputs.length →
      storeContains s.utxoStore (env.hashTxIdx (env.encode tx) j) = false)
    (h10 : outputSum tx.outputs < U128)
    (h11 : tx.outputs.length < U64) :
    validate_transaction env vf s tx =
      .ok ⟨(tx.inputs.filter (fun i => (storeGet s.utxoStore i.outpoint).isNone)).map
             (fun i => env.h256ToBytes i.outpoint),
           (List.range tx.outputs.length).map
             (fun j => env.h256ToBytes (env.hashTxIdx (env.encode tx) j)),
           0, U64 - 1, true⟩ := by
  have hchar1 : processInputs env vf s.utxoStore (get_simple_transaction env tx)
      tx.inputs 0 [] =
      .ok (inputSum s.utxoStore tx.inputs,
           (tx.inputs.filter (fun i => (storeGet s.utxoStore i.outpoint).isNone)).map
             (fun i => env.h256ToBytes i.outpoint)) := by
    have h := processInputs_char env vf s.utxoStore (get_simple_transaction env tx)
      tx.inputs 0 [] h6 (by rw [Nat.zero_add]; exact h7)
    rwa [Nat.zero_add, List.nil_append] at h
  have hchar2 : processOutputs env s.utxoStore (env.encode tx) tx.outputs 0 0 [] =
      .ok (outputSum tx.outputs,
           (List.range tx.outputs.length).map
             (fun j => env.h256ToBytes (env.hashTxIdx (env.encode tx) j))) := by
    have h := processOutputs_char env s.utxoStore (env.encode tx) tx.outputs 0 0 []
      h8 (fun j hj => by rw [Nat.zero_add]; exact h9 j hj)
      (by rw [Nat.zero_add]; exact h10) (by rw [Nat.zero_add]; exact h11)
    rw [Nat.zero_add, List.nil_append] at h
    rwa [show (fun j => env.h256ToBytes (env.hashTxIdx (env.encode tx) (0 + j))) =
        (fun j => env.h256ToBytes (env.hashTxIdx (env.encode tx) j)) from by
      funext j; rw [Nat.zero_add]] at h
  have hmne : ((tx.inputs.filter (fun i => (storeGet s.utxoStore i.outpoint).isNone)).map
      (fun i => env.h256ToBytes i.outpoint)).isEmpty ≠ true := by
    obtain ⟨i, hi, hgi⟩ := h5
    have hif : i ∈ tx.inputs.filter (fun x => (storeGet s.utxoStore x.outpoint).isNone) :=
      List.mem_filter.mpr ⟨hi, by rw [hgi]; rfl⟩
    intro hcontra
    rw [List.isEmpty_iff, List.map_eq_nil_iff] at hcontra
    rw [hcontra] at hif
    exact List.not_mem_nil i hif
  unfold validate_transaction
  rw [if_neg (fun hc => h1 (List.isEmpty_iff.mp hc)),
      if_neg (fun hc => h2 (List.isEmpty_iff.mp hc)),
      if_neg (not_not.mpr ((dedup_length_iff tx.inputs).mpr h3)),
      if_neg (not_not.mpr ((dedup_length_iff tx.outputs).mpr h4))]
  split
  · rename_i e heq
    rw [hchar1] at heq
    exact Except.noConfusion heq
  · rename_i ti missing heq
    rw [hchar1] at heq
    obtain ⟨hti, hmiss⟩ := Prod.mk.injEq .. |>.mp (Except.ok.inj heq)
    subst hti
    subst hmiss
    split
    · rename_i e heq2
      rw [hchar2] at heq2
      exact Except.noConfusion heq2
    · rename_i tOut nl heq2
      rw [hchar2] at heq2
      obtain ⟨hto, hnl⟩ := Prod.mk.injEq .. |>.mp (Except.ok.inj heq2)
      subst hto
      subst hnl
      rw [if_neg hmne]

/-- Claim C9, witness: the single-missing-input transaction over the empty
store is accepted with requires exactly its absent outpoint, provides the
key of its one output, and priority 0. -/
theorem c9_witness :
    validate_transaction cEnv cVerify st0 txMiss =
      .ok ⟨(txMiss.inputs.filter (fun i => (storeGet st0.utxoStore i.outpoint).isNone)).map
             (fun i => cEnv.h256ToBytes i.outpoint),
           (List.range txMiss.outputs.length).map
             (fun j => cEnv.h256ToBytes (cEnv.hashTxIdx (cEnv.encode txMiss) j)),
           0, U64 - 1, true⟩ :=
  c9_missing_inputs_descriptor cEnv cVerify st0 txMiss (by decide) (by decide) (by decide)
    (by decide) ⟨⟨7, 3⟩, by decide, rfl⟩
    (fun i hi u hu => by simp [st0, storeGet] at hu)
    (by decide) (by decide) (fun j hj => rfl) (by decide) (by decide)

end Utxo
